import Mathlib

/-!
Shallow embedding of the cursor-based tokenizer in `src/scanner.rs`
(crate `scanner`, struct `Scanner`), together with proofs of its
specified properties.

Strings are modelled as `List Char`; the byte indices that Rust's
`char_indices` yields coincide with character positions on the ASCII
inputs the specification discusses, so character positions are used
throughout.  Rust whitespace (`char::is_whitespace`, `str::trim_start`,
`str::trim_end`) is modelled by its ASCII fragment.  The generic
`next_number<T: FromStr>` is modelled by a `next_number` that is
parametric in the parse function; `parseIntRust` models
`i64::from_str` (overflow is not modelled; every number in the claims
is tiny).
-/

namespace ScannerRs

/-- ASCII fragment of Rust `char::is_whitespace` (the `White_Space`
property restricted to ASCII): space, tab, newline, carriage return,
vertical tab, form feed. -/
def isRustWs (c : Char) : Bool :=
  c == ' ' || c == '\t' || c == '\n' || c == '\r' ||
    c == Char.ofNat 11 || c == Char.ofNat 12

/-- Model of Rust `str::trim_start`: remove leading whitespace. -/
def trimStart (cs : List Char) : List Char :=
  cs.dropWhile isRustWs

/-- Model of Rust `str::trim_end`: remove trailing whitespace. -/
def trimEnd (cs : List Char) : List Char :=
  (cs.reverse.dropWhile isRustWs).reverse

/-- The `Scanner` struct: a borrowed input string and a cursor.
`input` models the `&'a str` field, `position` the `usize` field. -/
structure Scanner where
  input : List Char
  position : Nat
  deriving DecidableEq

namespace Scanner

/-- `Scanner::new`. -/
def new (input : List Char) : Scanner :=
  ⟨input, 0⟩

/-- `Scanner::get_remaining`: `&self.input[self.position..]`. -/
def get_remaining (s : Scanner) : List Char :=
  s.input.drop s.position

/-- The loop body of `Scanner::next_token`: iterate over the indexed
characters of the remaining input, tracking `token_len` and
`valid_chars_count` exactly as the Rust `for` loop does, with the
early `break` once a non-matching character follows a match. -/
def scanLoop (pred : Char → Nat → Bool) :
    List Char → Nat → Nat → Nat → Nat × Nat
  | [], _, tokenLen, valid => (tokenLen, valid)
  | c :: cs, i, tokenLen, valid =>
    if pred c i then
      scanLoop pred cs (i + 1) (i + 1) (valid + 1)
    else if 0 < valid then
      (tokenLen, valid)
    else
      scanLoop pred cs (i + 1) i valid

/-- `Scanner::next_token`.  Returns the optional token together with
the scanner after the call (the Rust method mutates `self`). -/
def next_token (pred : Char → Nat → Bool) (s : Scanner) :
    Option (List Char) × Scanner :=
  let remaining := get_remaining s
  let r := scanLoop pred remaining 0 0 0
  if 0 < r.2 then
    (some (trimStart (remaining.take r.1)), ⟨s.input, s.position + r.1⟩)
  else
    (none, s)

/-- The predicate `|c, i| c.is_digit(10) || (c == '-' && i == 0)`
used by `Scanner::next_number`. -/
def numberPred (c : Char) (i : Nat) : Bool :=
  c.isDigit || (c == '-' && i == 0)

/-- `Scanner::next_number::<T>`, parametric in the `T::from_str`
parse function.  On parse failure the saved `position` is restored. -/
def next_number {α : Type} (parse : List Char → Option α) (s : Scanner) :
    Option α × Scanner :=
  let position := s.position
  match next_token numberPred s with
  | (none, s1) => (none, s1)
  | (some token, s1) =>
    match parse token with
    | some n => (some n, s1)
    | none => (none, ⟨s1.input, position⟩)

/-- `Scanner::next_word`. -/
def next_word (s : Scanner) : Option (List Char) × Scanner :=
  next_token (fun c _ => !(isRustWs c)) s

/-- Model of Rust `str::find(char)`: index of the first occurrence. -/
def findChar (target : Char) : List Char → Option Nat
  | [] => none
  | c :: cs =>
    if c == target then some 0 else (findChar target cs).map (· + 1)

/-- `Scanner::next_line`. -/
def next_line (s : Scanner) : Option (List Char) × Scanner :=
  let remaining := get_remaining s
  match findChar '\n' remaining with
  | some p =>
    (some (trimEnd (remaining.take p)), ⟨s.input, s.position + p + 1⟩)
  | none =>
    if remaining.isEmpty then
      (none, s)
    else
      (some (trimEnd remaining), ⟨s.input, s.input.length⟩)

end Scanner

/-- Value of a nonempty all-digit string, accumulator style. -/
def digitsToNatAux : List Char → Nat → Option Nat
  | [], acc => some acc
  | c :: cs, acc =>
    if c.isDigit then digitsToNatAux cs (acc * 10 + (c.toNat - 48)) else none

/-- `some` value of a nonempty string of ASCII digits, else `none`. -/
def digitsToNat : List Char → Option Nat
  | [] => none
  | c :: cs => digitsToNatAux (c :: cs) 0

/-- Model of Rust `i64::from_str`: an optional sign (`+` or `-`)
followed by one or more ASCII digits, nothing else.  Overflow is not
modelled. -/
def parseIntRust : List Char → Option Int
  | [] => none
  | '+' :: cs => (digitsToNat cs).map (fun n => (n : Int))
  | '-' :: cs => (digitsToNat cs).map (fun n => -(n : Int))
  | cs => (digitsToNat cs).map (fun n => (n : Int))

/-! ### Index-aware scanning helpers used to state the specifications -/

/-- Absolute index of the first character satisfying `pred`, scanning a
list whose head sits at absolute index `i`. -/
def findFirstIdx (pred : Char → Nat → Bool) : List Char → Nat → Option Nat
  | [], _ => none
  | c :: cs, i => if pred c i then some i else findFirstIdx pred cs (i + 1)

/-- Longest prefix whose characters satisfy `pred` at their absolute
indices, the head sitting at absolute index `i`. -/
def takeWhileIdx (pred : Char → Nat → Bool) : List Char → Nat → List Char
  | [], _ => []
  | c :: cs, i => if pred c i then c :: takeWhileIdx pred cs (i + 1) else []

/-- Suffix left after `takeWhileIdx`. -/
def dropWhileIdx (pred : Char → Nat → Bool) : List Char → Nat → List Char
  | [], _ => []
  | c :: cs, i => if pred c i then dropWhileIdx pred cs (i + 1) else c :: cs

/-- One scanner operation, for stating properties of arbitrary call
sequences.  `num` carries the parse function of the numeric type the
caller instantiated `next_number` at; `tok` carries the caller's
predicate. -/
inductive Op where
  | word : Op
  | line : Op
  | num : (List Char → Option Int) → Op
  | tok : (Char → Nat → Bool) → Op

/-- The scanner state after performing one operation (the returned
token is irrelevant to cursor evolution). -/
def applyOp (s : Scanner) (op : Op) : Scanner :=
  match op with
  | .word => (Scanner.next_word s).2
  | .line => (Scanner.next_line s).2
  | .num parse => (Scanner.next_number parse s).2
  | .tok pred => (Scanner.next_token pred s).2

/-- The scanner state after a sequence of operations. -/
def runOps (s : Scanner) (ops : List Op) : Scanner :=
  ops.foldl applyOp s

/-- Results of `n` successive `next_number::<i64>` calls. -/
def nextNumbers : Nat → Scanner → List (Option Int)
  | 0, _ => []
  | n + 1, s =>
    let r := Scanner.next_number parseIntRust s
    r.1 :: nextNumbers n r.2

theorem takeWhileIdx_append_dropWhileIdx (pred : Char → Nat → Bool) :
    ∀ (cs : List Char) (i : Nat),
      takeWhileIdx pred cs i ++ dropWhileIdx pred cs i = cs
  | [], _ => rfl
  | c :: cs, i => by
    by_cases h : pred c i <;>
      simp [takeWhileIdx, dropWhileIdx, h, takeWhileIdx_append_dropWhileIdx pred cs (i + 1)]

theorem take_length_of_append_eq {α : Type} {l₁ l₂ l : List α}
    (h : l₁ ++ l₂ = l) : l.take l₁.length = l₁ := by
  subst h; exact List.take_left l₁ l₂

theorem drop_length_of_append_eq {α : Type} {l₁ l₂ l : List α}
    (h : l₁ ++ l₂ = l) : l.drop l₁.length = l₂ := by
  subst h; exact List.drop_left l₁ l₂

theorem takeWhileIdx_sat (pred : Char → Nat → Bool) :
    ∀ (cs : List Char) (i : Nat) (j : Nat) (c : Char),
      (takeWhileIdx pred cs i).get? j = some c → pred c (i + j) = true := by
  intro cs
  induction cs with
  | nil => intro i j c h; simp [takeWhileIdx] at h
  | cons a cs ih =>
    intro i j c h
    by_cases ha : pred a i
    · rw [takeWhileIdx, if_pos ha] at h
      match j with
      | 0 =>
        rw [List.get?_cons_zero, Option.some.injEq] at h
        subst h; simpa using ha
      | j + 1 =>
        rw [List.get?_cons_succ] at h
        have := ih (i + 1) j c h
        simpa [Nat.add_assoc, Nat.add_comm 1] using this
    · rw [takeWhileIdx, if_neg ha] at h
      simp at h

theorem dropWhileIdx_head_fail (pred : Char → Nat → Bool) :
    ∀ (cs : List Char) (i : Nat) (c : Char) (cs2 : List Char),
      dropWhileIdx pred cs i = c :: cs2 →
      pred c (i + (takeWhileIdx pred cs i).length) = false := by
  intro cs
  induction cs with
  | nil => intro i c cs2 h; simp [dropWhileIdx] at h
  | cons a cs ih =>
    intro i c cs2 h
    by_cases ha : pred a i
    · rw [dropWhileIdx, if_pos ha] at h
      have := ih (i + 1) c cs2 h
      rw [takeWhileIdx, if_pos ha]
      simpa [Nat.add_assoc, Nat.add_comm 1] using this
    · rw [dropWhileIdx, if_neg ha] at h
      rw [List.cons.injEq] at h
      rw [takeWhileIdx, if_neg ha]
      simpa [← h.1, Bool.not_eq_true] using ha

theorem takeWhileIdx_eq_take (pred : Char → Nat → Bool) (cs : List Char)
    (i : Nat) :
    takeWhileIdx pred cs i = cs.take (takeWhileIdx pred cs i).length :=
  (take_length_of_append_eq (takeWhileIdx_append_dropWhileIdx pred cs i)).symm

theorem findFirstIdx_ge (pred : Char → Nat → Bool) :
    ∀ (cs : List Char) (i k : Nat), findFirstIdx pred cs i = some k → i ≤ k := by
  intro cs
  induction cs with
  | nil => intro i k h; simp [findFirstIdx] at h
  | cons c cs ih =>
    intro i k h
    by_cases hc : pred c i
    · simp [findFirstIdx, hc] at h; omega
    · simp only [findFirstIdx, hc, if_neg, Bool.not_eq_true] at h
      have := ih (i + 1) k (by simpa using h)
      omega

theorem findFirstIdx_decomp (pred : Char → Nat → Bool) :
    ∀ (cs : List Char) (i k : Nat), findFirstIdx pred cs i = some k →
      ∃ c rest, cs.drop (k - i) = c :: rest ∧ pred c k = true := by
  intro cs
  induction cs with
  | nil => intro i k h; simp [findFirstIdx] at h
  | cons c cs ih =>
    intro i k h
    by_cases hc : pred c i
    · simp only [findFirstIdx, hc, if_pos, Option.some.injEq] at h
      subst h
      exact ⟨c, cs, by simp, hc⟩
    · simp only [findFirstIdx, hc, if_neg, Bool.not_eq_true] at h
      have hk := findFirstIdx_ge pred cs (i + 1) k (by simpa using h)
      obtain ⟨c', rest, hdrop, hpred⟩ := ih (i + 1) k (by simpa using h)
      refine ⟨c', rest, ?_, hpred⟩
      have : k - i = (k - (i + 1)) + 1 := by omega
      rw [this]
      simpa using hdrop

theorem findFirstIdx_before_fail (pred : Char → Nat → Bool) :
    ∀ (cs : List Char) (i k : Nat), findFirstIdx pred cs i = some k →
      ∀ (j : Nat) (c : Char), (cs.take (k - i)).get? j = some c →
        pred c (i + j) = false := by
  intro cs
  induction cs with
  | nil => intro i k h; simp [findFirstIdx] at h
  | cons a cs ih =>
    intro i k h j c hj
    by_cases ha : pred a i
    · rw [findFirstIdx, if_pos ha, Option.some.injEq] at h
      subst h
      simp at hj
    · rw [findFirstIdx, if_neg ha] at h
      have hk := findFirstIdx_ge pred cs (i + 1) k h
      have hki : k - i = (k - (i + 1)) + 1 := by omega
      rw [hki, List.take_succ_cons] at hj
      match j with
      | 0 =>
        rw [List.get?_cons_zero, Option.some.injEq] at hj
        subst hj
        simpa [Bool.not_eq_true] using ha
      | j + 1 =>
        rw [List.get?_cons_succ] at hj
        have := ih (i + 1) k h j c hj
        simpa [Nat.add_assoc, Nat.add_comm 1] using this

/-! ### Characterization of the `next_token` scanning loop -/

namespace Scanner

theorem scanLoop_run (pred : Char → Nat → Bool) :
    ∀ (cs : List Char) (i v : Nat), 0 < v →
      scanLoop pred cs i i v =
        (i + (takeWhileIdx pred cs i).length,
          v + (takeWhileIdx pred cs i).length) := by
  intro cs
  induction cs with
  | nil => intro i v _; simp [scanLoop, takeWhileIdx]
  | cons c cs ih =>
    intro i v hv
    by_cases hc : pred c i
    · rw [scanLoop, if_pos hc, takeWhileIdx, if_pos hc,
        ih (i + 1) (v + 1) (by omega)]
      simp only [List.length_cons, Prod.mk.injEq]
      omega
    · rw [scanLoop, if_neg hc, if_pos hv, takeWhileIdx, if_neg hc]
      simp

theorem scanLoop_none (pred : Char → Nat → Bool) :
    ∀ (cs : List Char) (i tl : Nat), findFirstIdx pred cs i = none →
      (scanLoop pred cs i tl 0).2 = 0 := by
  intro cs
  induction cs with
  | nil => intro i tl _; simp [scanLoop]
  | cons c cs ih =>
    intro i tl h
    rw [findFirstIdx] at h
    by_cases hc : pred c i
    · rw [if_pos hc] at h; exact absurd h (by simp)
    · rw [if_neg hc] at h
      rw [scanLoop, if_neg hc, if_neg (by omega)]
      exact ih (i + 1) i h

theorem scanLoop_some (pred : Char → Nat → Bool) :
    ∀ (cs : List Char) (i tl k : Nat), findFirstIdx pred cs i = some k →
      scanLoop pred cs i tl 0 =
        (k + 1 + (takeWhileIdx pred (cs.drop (k + 1 - i)) (k + 1)).length,
          1 + (takeWhileIdx pred (cs.drop (k + 1 - i)) (k + 1)).length) := by
  intro cs
  induction cs with
  | nil => intro i tl k h; simp [findFirstIdx] at h
  | cons c cs ih =>
    intro i tl k h
    rw [findFirstIdx] at h
    by_cases hc : pred c i
    · rw [if_pos hc, Option.some.injEq] at h
      subst h
      rw [scanLoop, if_pos hc, scanLoop_run pred cs (i + 1) 1 (by omega)]
      simp only [Nat.add_sub_cancel_left, List.drop_one, List.tail_cons,
        Prod.mk.injEq]
    · rw [if_neg hc] at h
      have hk := findFirstIdx_ge pred cs (i + 1) k h
      rw [scanLoop, if_neg hc, if_neg (by omega), ih (i + 1) i k h]
      have h1 : k + 1 - i = (k + 1 - (i + 1)) + 1 := by omega
      rw [h1, List.drop_succ_cons]

theorem scanLoop_fst_le (pred : Char → Nat → Bool) :
    ∀ (cs : List Char) (i tl v : Nat), tl ≤ i →
      (scanLoop pred cs i tl v).1 ≤ i + cs.length := by
  intro cs
  induction cs with
  | nil => intro i tl v h; simpa [scanLoop] using by omega
  | cons c cs ih =>
    intro i tl v h
    rw [scanLoop]
    by_cases hc : pred c i
    · rw [if_pos hc]
      have := ih (i + 1) (i + 1) (v + 1) (by omega)
      simpa [Nat.add_comm, Nat.add_assoc, Nat.add_left_comm] using this
    · rw [if_neg hc]
      by_cases hv : 0 < v
      · rw [if_pos hv]
        simp only [List.length_cons]
        omega
      · rw [if_neg hv]
        have := ih (i + 1) i v (by omega)
        simp only [List.length_cons]
        omega

theorem next_token_eq_none (pred : Char → Nat → Bool) (s : Scanner)
    (h : findFirstIdx pred (get_remaining s) 0 = none) :
    next_token pred s = (none, s) := by
  have h2 := scanLoop_none pred (get_remaining s) 0 0 h
  simp [next_token, h2]

theorem next_token_eq_some (pred : Char → Nat → Bool) (s : Scanner) (k : Nat)
    (h : findFirstIdx pred (get_remaining s) 0 = some k) :
    next_token pred s =
      (some (trimStart ((get_remaining s).take
          (k + 1 +
            (takeWhileIdx pred ((get_remaining s).drop (k + 1)) (k + 1)).length))),
        ⟨s.input, s.position +
          (k + 1 +
            (takeWhileIdx pred ((get_remaining s).drop (k + 1)) (k + 1)).length)⟩) := by
  have h2 := scanLoop_some pred (get_remaining s) 0 0 k h
  simp only [Nat.sub_zero] at h2
  simp only [next_token, h2]
  rw [if_pos (by omega)]

theorem next_token_input_eq (pred : Char → Nat → Bool) (s : Scanner) :
    (next_token pred s).2.input = s.input := by
  by_cases hc : 0 < (scanLoop pred (get_remaining s) 0 0 0).2
  · simp [next_token, hc]
  · simp [next_token, hc]

theorem next_token_none_self (pred : Char → Nat → Bool) (s : Scanner)
    (h : (next_token pred s).1 = none) : (next_token pred s).2 = s := by
  by_cases hc : 0 < (scanLoop pred (get_remaining s) 0 0 0).2
  · exfalso; simp [next_token, hc] at h
  · simp [next_token, hc]

/-- Full characterization of a successful `next_token` call: the
previous remainder splits into `skipped ++ run ++ rest`, where every
`skipped` character fails the predicate at its index, `run` is the
nonempty maximal run of satisfying characters, and the head of `rest`
(the character the loop broke on) fails the predicate.  The returned
token is `skipped ++ run` with leading whitespace trimmed, and the
cursor advances over exactly `skipped ++ run`. -/
theorem next_token_spec (pred : Char → Nat → Bool) (s : Scanner)
    (tok : List Char) (s' : Scanner)
    (h : next_token pred s = (some tok, s')) :
    ∃ skipped run rest : List Char,
      get_remaining s = skipped ++ run ++ rest ∧
      run ≠ [] ∧
      (∀ (j : Nat) (c : Char), skipped.get? j = some c → pred c j = false) ∧
      (∀ (j : Nat) (c : Char), run.get? j = some c →
        pred c (skipped.length + j) = true) ∧
      (∀ (c : Char) (cs2 : List Char), rest = c :: cs2 →
        pred c (skipped.length + run.length) = false) ∧
      tok = trimStart (skipped ++ run) ∧
      s'.input = s.input ∧
      s'.position = s.position + skipped.length + run.length ∧
      get_remaining s' = rest := by
  cases hf : findFirstIdx pred (get_remaining s) 0 with
  | none =>
    rw [next_token_eq_none pred s hf] at h
    exact absurd (congrArg Prod.fst h) (by simp)
  | some k =>
    obtain ⟨c, rest0, hdrop, hck⟩ := findFirstIdx_decomp pred _ 0 k hf
    rw [Nat.sub_zero] at hdrop
    have hklt : k < (get_remaining s).length := by
      have := congrArg List.length hdrop
      rw [List.length_drop] at this
      simp only [List.length_cons] at this
      omega
    set r := get_remaining s with hr
    set twi := takeWhileIdx pred rest0 (k + 1) with htwi
    set L := twi.length with hL
    have hdrop1 : r.drop (k + 1) = rest0 := by
      have h2 : r.drop (k + 1) = (r.drop k).drop 1 := by
        rw [List.drop_drop, Nat.add_comm]
      rw [h2, hdrop, List.drop_one, List.tail_cons]
    rw [next_token_eq_some pred s k hf] at h
    rw [← hr, hdrop1, ← htwi, ← hL,
      Prod.mk.injEq, Option.some.injEq] at h
    obtain ⟨htok, hs'⟩ := h
    refine ⟨r.take k, c :: twi, dropWhileIdx pred rest0 (k + 1), ?_, by simp,
      ?_, ?_, ?_, ?_, ?_, ?_, ?_⟩
    · conv_lhs => rw [← List.take_append_drop k r]
      rw [hdrop]
      simp only [List.cons_append, List.append_assoc]
      rw [takeWhileIdx_append_dropWhileIdx]
    · intro j cj hj
      have := findFirstIdx_before_fail pred r 0 k hf j cj
        (by simpa using hj)
      simpa using this
    · intro j cj hj
      have hlen : (r.take k).length = k := by
        rw [List.length_take]; omega
      rw [hlen]
      match j with
      | 0 =>
        rw [List.get?_cons_zero, Option.some.injEq] at hj
        subst hj
        simpa using hck
      | j + 1 =>
        rw [List.get?_cons_succ] at hj
        have := takeWhileIdx_sat pred rest0 (k + 1) j cj hj
        have harith : k + 1 + j = k + (j + 1) := by omega
        rwa [harith] at this
    · intro c2 cs2 hrest
      have := dropWhileIdx_head_fail pred rest0 (k + 1) c2 cs2 hrest
      have hlen : (r.take k).length = k := by
        rw [List.length_take]; omega
      have harith : k + 1 + L = (r.take k).length + (c :: twi).length := by
        rw [hlen]; simp only [List.length_cons]; omega
      rwa [← hL, harith] at this
    · have harith : k + 1 + L = k + (1 + L) := by omega
      have htake : r.take (k + 1 + L) = r.take k ++ (c :: twi) := by
        rw [harith, List.take_add, hdrop]
        congr 1
        rw [Nat.add_comm 1 L, List.take_succ_cons]
        congr 1
        exact (takeWhileIdx_eq_take pred rest0 (k + 1)).symm
      rw [← htok, htake]
    · rw [← hs']
    · rw [← hs']
      simp only [List.length_take, List.length_cons]
      have hmin : min k r.length = k := by omega
      rw [hmin]
      omega
    · rw [← hs']
      have hlen2 : s.position + (k + 1 + L) =
          s.position + (r.take k ++ c :: twi).length := by
        simp only [List.length_append, List.length_take, List.length_cons]
        have hmin : min k r.length = k := by omega
        omega
      have h3 : get_remaining ⟨s.input, s.position + (k + 1 + L)⟩ =
          r.drop ((r.take k ++ c :: twi).length) := by
        simp only [get_remaining]
        rw [hlen2, hr, get_remaining, ← List.drop_drop]
      rw [h3]
      apply drop_length_of_append_eq
      conv_rhs => rw [← List.take_append_drop k r]
      rw [hdrop]
      simp only [List.cons_append, List.append_assoc]
      rw [takeWhileIdx_append_dropWhileIdx]

theorem next_word_input_eq (s : Scanner) :
    (next_word s).2.input = s.input :=
  next_token_input_eq _ s

theorem next_word_none_self (s : Scanner)
    (h : (next_word s).1 = none) : (next_word s).2 = s :=
  next_token_none_self _ s h

theorem next_number_input_eq {α : Type} (parse : List Char → Option α)
    (s : Scanner) : (next_number parse s).2.input = s.input := by
  rcases h1 : next_token numberPred s with ⟨o, s1⟩
  have hinp : s1.input = s.input := by
    have h2 := next_token_input_eq numberPred s
    rw [h1] at h2
    exact h2
  cases o with
  | none => simp [next_number, h1, hinp]
  | some token =>
    cases h2 : parse token with
    | none => simp [next_number, h1, h2, hinp]
    | some n => simp [next_number, h1, h2, hinp]

theorem next_number_none_self {α : Type} (parse : List Char → Option α)
    (s : Scanner) (h : (next_number parse s).1 = none) :
    (next_number parse s).2 = s := by
  rcases h1 : next_token numberPred s with ⟨o, s1⟩
  have hinp : s1.input = s.input := by
    have h2 := next_token_input_eq numberPred s
    rw [h1] at h2
    exact h2
  cases o with
  | none =>
    have hs1 : s1 = s := by
      have h3 := next_token_none_self numberPred s
      rw [h1] at h3
      exact h3 rfl
    simp [next_number, h1, hs1]
  | some token =>
    cases h2 : parse token with
    | some n => exfalso; simp [next_number, h1, h2] at h
    | none =>
      simp only [next_number, h1, h2]
      rw [hinp]

theorem next_line_input_eq (s : Scanner) :
    (next_line s).2.input = s.input := by
  cases h1 : findChar '\n' (get_remaining s) with
  | some p => simp [next_line, h1]
  | none =>
    by_cases he : (get_remaining s).isEmpty
    · simp [next_line, h1, he]
    · simp [next_line, h1, he]

theorem next_line_none_self (s : Scanner)
    (h : (next_line s).1 = none) : (next_line s).2 = s := by
  cases h1 : findChar '\n' (get_remaining s) with
  | some p => exfalso; simp [next_line, h1] at h
  | none =>
    by_cases he : (get_remaining s).isEmpty
    · simp [next_line, h1, he]
    · exfalso; simp [next_line, h1, he] at h

theorem findChar_some_lt (target : Char) :
    ∀ (cs : List Char) (p : Nat), findChar target cs = some p →
      p < cs.length := by
  intro cs
  induction cs with
  | nil => intro p h; simp [findChar] at h
  | cons c cs ih =>
    intro p h
    rw [findChar] at h
    by_cases hc : c == target
    · rw [if_pos hc, Option.some.injEq] at h
      subst h
      simp
    · rw [if_neg hc] at h
      match h2 : findChar target cs with
      | none => rw [h2] at h; simp at h
      | some q =>
        rw [h2] at h
        simp at h
        subst h
        have := ih q h2
        simp only [List.length_cons]
        omega

theorem findChar_of_decomp (target : Char) :
    ∀ (before after : List Char), target ∉ before →
      findChar target (before ++ target :: after) = some before.length := by
  intro before
  induction before with
  | nil => intro after _; simp [findChar]
  | cons c before ih =>
    intro after hmem
    have hc : ¬(c == target) := by
      simp only [beq_iff_eq]
      intro heq
      exact hmem (by simp [heq])
    rw [List.cons_append, findChar, if_neg hc,
      ih after (fun hm => hmem (List.mem_cons_of_mem c hm))]
    simp

theorem findChar_none (target : Char) :
    ∀ (cs : List Char), target ∉ cs → findChar target cs = none := by
  intro cs
  induction cs with
  | nil => intro _; rfl
  | cons c cs ih =>
    intro hmem
    have hc : ¬(c == target) := by
      simp only [beq_iff_eq]
      intro heq
      exact hmem (by simp [heq])
    rw [findChar, if_neg hc, ih (fun hm => hmem (List.mem_cons_of_mem c hm))]
    rfl

/-- Every `next_token` call either leaves the scanner untouched and
reports `none`, or advances the cursor by the scanned length `tl`,
which never exceeds the length of the remaining input. -/
theorem next_token_cases (pred : Char → Nat → Bool) (s : Scanner) :
    next_token pred s = (none, s) ∨
      ∃ tl : Nat, tl ≤ (get_remaining s).length ∧
        next_token pred s =
          (some (trimStart ((get_remaining s).take tl)),
            ⟨s.input, s.position + tl⟩) := by
  by_cases hc : 0 < (scanLoop pred (get_remaining s) 0 0 0).2
  · right
    refine ⟨(scanLoop pred (get_remaining s) 0 0 0).1, ?_, ?_⟩
    · have := scanLoop_fst_le pred (get_remaining s) 0 0 0 (by omega)
      omega
    · simp [next_token, hc]
  · left
    simp [next_token, hc]

theorem next_token_pos_mono (pred : Char → Nat → Bool) (s : Scanner) :
    s.position ≤ (next_token pred s).2.position := by
  rcases next_token_cases pred s with h | ⟨tl, _, h⟩
  · rw [h]
  · rw [h]; simp

theorem next_token_pos_le (pred : Char → Nat → Bool) (s : Scanner)
    (hwf : s.position ≤ s.input.length) :
    (next_token pred s).2.position ≤ s.input.length := by
  rcases next_token_cases pred s with h | ⟨tl, htl, h⟩ <;> rw [h]
  · exact hwf
  · simp only [get_remaining, List.length_drop] at htl
    simp only []
    omega

theorem next_number_sc_cases {α : Type} (parse : List Char → Option α)
    (s : Scanner) :
    (next_number parse s).2 = s ∨
      (next_number parse s).2 = (next_token numberPred s).2 := by
  rcases h1 : next_token numberPred s with ⟨o, s1⟩
  have hinp : s1.input = s.input := by
    have h2 := next_token_input_eq numberPred s
    rw [h1] at h2
    exact h2
  cases o with
  | none => right; simp [next_number, h1]
  | some token =>
    cases h2 : parse token with
    | some n => right; simp [next_number, h1, h2]
    | none => left; simp [next_number, h1, h2, hinp]

theorem next_line_pos_mono (s : Scanner) :
    s.position ≤ (next_line s).2.position := by
  cases h1 : findChar '\n' (get_remaining s) with
  | some p => simp [next_line, h1]; omega
  | none =>
    by_cases he : get_remaining s = []
    · simp [next_line, h1, he, findChar]
    · have hlt : s.position < s.input.length := by
        by_contra hge
        exact he (by rw [get_remaining, List.drop_eq_nil_iff_le]; omega)
      simp [next_line, h1, he]
      omega

theorem next_line_pos_le (s : Scanner) (hwf : s.position ≤ s.input.length) :
    (next_line s).2.position ≤ s.input.length := by
  cases h1 : findChar '\n' (get_remaining s) with
  | some p =>
    have hp := findChar_some_lt '\n' (get_remaining s) p h1
    rw [get_remaining, List.length_drop] at hp
    simp [next_line, h1]
    omega
  | none =>
    by_cases he : get_remaining s = []
    · simp [next_line, h1, he]
      exact hwf
    · simp [next_line, h1, he]

end Scanner

/-! ### Claim theorems -/

open Scanner

/-- C1 (counterexample): the claim says leading characters that failed
the predicate are skipped and do not appear in the returned string.
In the code, `trim_start` removes only leading whitespace, so with the
digit predicate on input `"a1"` the skipped character `'a'` — which
fails the predicate — is part of the returned token. -/
theorem next_token_keeps_failed_nonws :
    (Scanner.next_token (fun c _ => c.isDigit)
        (Scanner.mk ['a', '1'] 0)).1 = some ['a', '1'] ∧
      Char.isDigit 'a' = false := by
  constructor
  · decide
  · decide

/-- C1 (amended): when `next_token` succeeds, the previous remainder
splits as `skipped ++ run ++ rest` with every skipped character
failing the predicate at its index, `run` the nonempty maximal
predicate-satisfying run, and the terminating character (head of
`rest`) failing the predicate and left unconsumed; the offset advances
by the total number of scanned characters (skipped plus run); the
returned token is the scanned prefix `skipped ++ run` with leading
whitespace (only) trimmed — skipped non-whitespace characters remain
in the returned token. -/
theorem next_token_characterization (pred : Char → Nat → Bool)
    (s : Scanner) (tok : List Char) (s' : Scanner)
    (h : Scanner.next_token pred s = (some tok, s')) :
    ∃ skipped run rest : List Char,
      Scanner.get_remaining s = skipped ++ run ++ rest ∧
      run ≠ [] ∧
      (∀ (j : Nat) (c : Char), skipped.get? j = some c → pred c j = false) ∧
      (∀ (j : Nat) (c : Char), run.get? j = some c →
        pred c (skipped.length + j) = true) ∧
      (∀ (c : Char) (cs2 : List Char), rest = c :: cs2 →
        pred c (skipped.length + run.length) = false) ∧
      tok = trimStart (skipped ++ run) ∧
      s'.input = s.input ∧
      s'.position = s.position + skipped.length + run.length ∧
      Scanner.get_remaining s' = rest :=
  next_token_spec pred s tok s' h

/-- C1 witness: the characterization evaluated on input `" ab c"`
with the non-whitespace predicate. -/
theorem next_token_characterization_witness :
    ∃ skipped run rest : List Char,
      Scanner.get_remaining (Scanner.mk " ab c".toList 0) =
        skipped ++ run ++ rest ∧
      run ≠ [] ∧
      (∀ (j : Nat) (c : Char), skipped.get? j = some c →
        (fun c i => !(isRustWs c)) c j = false) ∧
      (∀ (j : Nat) (c : Char), run.get? j = some c →
        (fun c i => !(isRustWs c)) c (skipped.length + j) = true) ∧
      (∀ (c : Char) (cs2 : List Char), rest = c :: cs2 →
        (fun c i => !(isRustWs c)) c (skipped.length + run.length) = false) ∧
      "ab".toList = trimStart (skipped ++ run) ∧
      (Scanner.mk " ab c".toList 3).input = (Scanner.mk " ab c".toList 0).input ∧
      (Scanner.mk " ab c".toList 3).position =
        (Scanner.mk " ab c".toList 0).position + skipped.length + run.length ∧
      Scanner.get_remaining (Scanner.mk " ab c".toList 3) = rest :=
  next_token_characterization (fun c i => !(isRustWs c))
    (Scanner.mk " ab c".toList 0) "ab".toList (Scanner.mk " ab c".toList 3)
    (by decide)

/-- C2 (counterexample): the claim says every character of the token
matched by `next_number`'s predicate pass is an ASCII digit, except a
`'-'` allowed only at position 0 of the token.  On input `"a-1"` the
matched token is `"a-1"` itself: `'a'` (neither digit nor sign) is at
position 0 and `'-'` sits mid-token at position 1. -/
theorem next_number_token_shape_claim_false :
    ¬ (∀ (s : Scanner) (tok : List Char) (s' : Scanner),
        Scanner.next_token numberPred s = (some tok, s') →
        ∀ (j : Nat) (c : Char), tok.get? j = some c →
          c.isDigit = true ∨ (c = '-' ∧ j = 0)) := by
  intro hclaim
  have h := hclaim (Scanner.mk ['a', '-', '1'] 0) ['a', '-', '1']
    (Scanner.mk ['a', '-', '1'] 3) (by decide) 1 '-' (by decide)
  rcases h with h | ⟨_, h0⟩
  · exact absurd h (by decide)
  · exact absurd h0 (by decide)

/-- C2 (amended): `next_number`'s predicate accepts ASCII digits, and
accepts `'-'` exactly at index 0 of the raw remainder (before any
skipping).  Hence inside the matched run every character is a digit,
except that the first run character may be `'-'` and only when nothing
was skipped before the run; the returned token additionally carries
the skipped prefix (whitespace-trimmed), so it may contain other
characters. -/
theorem next_number_matched_run_digits (s : Scanner) (tok : List Char)
    (s' : Scanner)
    (h : Scanner.next_token numberPred s = (some tok, s')) :
    ∃ skipped run rest : List Char,
      Scanner.get_remaining s = skipped ++ run ++ rest ∧
      run ≠ [] ∧
      tok = trimStart (skipped ++ run) ∧
      ∀ (j : Nat) (c : Char), run.get? j = some c →
        c.isDigit = true ∨ (c = '-' ∧ j = 0 ∧ skipped = []) := by
  obtain ⟨skipped, run, rest, hdec, hne, hskip, hrun, hrest, htok, _, _, _⟩ :=
    next_token_spec numberPred s tok s' h
  refine ⟨skipped, run, rest, hdec, hne, htok, ?_⟩
  intro j c hj
  have hp := hrun j c hj
  rw [numberPred] at hp
  simp only [Bool.or_eq_true, Bool.and_eq_true, beq_iff_eq] at hp
  rcases hp with hd | ⟨hdash, hzero⟩
  · exact Or.inl hd
  · right
    have hz : skipped.length + j = 0 := by
      simpa using hzero
    refine ⟨hdash, by omega, ?_⟩
    have hl : skipped.length = 0 := by omega
    exact List.length_eq_zero.mp hl

/-- C2 witness: the amended statement evaluated on input `"-42x"`. -/
theorem next_number_matched_run_digits_witness :
    ∃ skipped run rest : List Char,
      Scanner.get_remaining (Scanner.mk "-42x".toList 0) =
        skipped ++ run ++ rest ∧
      run ≠ [] ∧
      "-42".toList = trimStart (skipped ++ run) ∧
      ∀ (j : Nat) (c : Char), run.get? j = some c →
        c.isDigit = true ∨ (c = '-' ∧ j = 0 ∧ skipped = []) :=
  next_number_matched_run_digits (Scanner.mk "-42x".toList 0) "-42".toList
    (Scanner.mk "-42x".toList 3) (by decide)

/-- C3: any of the four operations that reports "not found" leaves the
scanner — and hence both `position` and `get_remaining` — exactly as
it was before the call, including `next_number`'s rollback of the
cursor that its inner `next_token` had already advanced. -/
theorem no_op_on_failure {α : Type} (s : Scanner) (pred : Char → Nat → Bool)
    (parse : List Char → Option α) :
    ((Scanner.next_token pred s).1 = none →
      (Scanner.next_token pred s).2 = s) ∧
    ((Scanner.next_word s).1 = none → (Scanner.next_word s).2 = s) ∧
    ((Scanner.next_number parse s).1 = none →
      (Scanner.next_number parse s).2 = s) ∧
    ((Scanner.next_line s).1 = none → (Scanner.next_line s).2 = s) :=
  ⟨next_token_none_self pred s, next_word_none_self s,
    next_number_none_self parse s, next_line_none_self s⟩

/-- C3 witness: concrete failing calls, among them the lone-`'-'`
rollback of `next_number` (whose inner `next_token` succeeds with
token `"-"` before the parse fails). -/
theorem no_op_on_failure_witness :
    (Scanner.next_token (fun c _ => c.isDigit) (Scanner.mk [] 0)).2 =
        Scanner.mk [] 0 ∧
      (Scanner.next_word (Scanner.mk "   ".toList 0)).2 =
        Scanner.mk "   ".toList 0 ∧
      (Scanner.next_number parseIntRust (Scanner.mk ['-'] 0)).2 =
        Scanner.mk ['-'] 0 ∧
      (Scanner.next_line (Scanner.mk "ab".toList 2)).2 =
        Scanner.mk "ab".toList 2 :=
  ⟨(no_op_on_failure (Scanner.mk [] 0) (fun c _ => c.isDigit)
      parseIntRust).1 (by decide),
    (no_op_on_failure (Scanner.mk "   ".toList 0) (fun c _ => c.isDigit)
      parseIntRust).2.1 (by decide),
    (no_op_on_failure (Scanner.mk ['-'] 0) (fun c _ => c.isDigit)
      parseIntRust).2.2.1 (by decide),
    (no_op_on_failure (Scanner.mk "ab".toList 2) (fun c _ => c.isDigit)
      parseIntRust).2.2.2 (by decide)⟩

theorem applyOp_input (s : Scanner) (op : Op) :
    (applyOp s op).input = s.input := by
  cases op with
  | word => exact next_word_input_eq s
  | line => exact next_line_input_eq s
  | num parse => exact next_number_input_eq parse s
  | tok pred => exact next_token_input_eq pred s

theorem applyOp_pos_mono (s : Scanner) (op : Op) :
    s.position ≤ (applyOp s op).position := by
  cases op with
  | word => exact next_token_pos_mono (fun c _ => !(isRustWs c)) s
  | line => exact next_line_pos_mono s
  | num parse =>
    show s.position ≤ (Scanner.next_number parse s).2.position
    rcases next_number_sc_cases parse s with h | h
    · rw [h]
    · rw [h]; exact next_token_pos_mono numberPred s
  | tok pred => exact next_token_pos_mono pred s

theorem applyOp_pos_le (s : Scanner) (op : Op)
    (hwf : s.position ≤ s.input.length) :
    (applyOp s op).position ≤ s.input.length := by
  cases op with
  | word => exact next_token_pos_le (fun c _ => !(isRustWs c)) s hwf
  | line => exact next_line_pos_le s hwf
  | num parse =>
    show (Scanner.next_number parse s).2.position ≤ s.input.length
    rcases next_number_sc_cases parse s with h | h
    · rw [h]; exact hwf
    · rw [h]; exact next_token_pos_le numberPred s hwf
  | tok pred => exact next_token_pos_le pred s hwf

theorem runOps_invariant :
    ∀ (ops : List Op) (s : Scanner), s.position ≤ s.input.length →
      s.position ≤ (runOps s ops).position ∧
        (runOps s ops).position ≤ (runOps s ops).input.length ∧
        (runOps s ops).input = s.input := by
  intro ops
  induction ops with
  | nil => intro s h; exact ⟨Nat.le_refl _, h, rfl⟩
  | cons op ops ih =>
    intro s h
    have h2 := applyOp_pos_le s op h
    have hwf2 : (applyOp s op).position ≤ (applyOp s op).input.length := by
      rw [applyOp_input s op]; exact h2
    obtain ⟨a, b, c⟩ := ih (applyOp s op) hwf2
    have hrun : runOps s (op :: ops) = runOps (applyOp s op) ops := rfl
    rw [hrun]
    refine ⟨Nat.le_trans (applyOp_pos_mono s op) a, b, ?_⟩
    rw [c, applyOp_input s op]

/-- C4: starting from `Scanner::new`, along any sequence of operations
the cursor never decreases from one observable state to the next, and
at every observable state it satisfies `position ≤ length input`. -/
theorem offset_monotone_and_bounded (input : List Char) (ops : List Op)
    (op : Op) :
    (runOps (Scanner.new input) ops).position ≤
        (runOps (Scanner.new input) (ops ++ [op])).position ∧
      (runOps (Scanner.new input) ops).position ≤ input.length := by
  have hwf : (Scanner.new input).position ≤ (Scanner.new input).input.length := by
    simp [Scanner.new]
  obtain ⟨a, b, c⟩ := runOps_invariant ops (Scanner.new input) hwf
  constructor
  · have happ : runOps (Scanner.new input) (ops ++ [op]) =
        applyOp (runOps (Scanner.new input) ops) op := by
      rw [runOps, runOps, List.foldl_append, List.foldl_cons, List.foldl_nil]
    rw [happ]
    exact applyOp_pos_mono _ op
  · rw [c] at b
    exact b

theorem drop_split {α : Type} (l : List α) (p q : Nat) (h : p ≤ q) :
    l.drop p = (l.drop p).take (q - p) ++ l.drop q := by
  conv_lhs => rw [← List.take_append_drop (q - p) (l.drop p)]
  rw [List.drop_drop]
  have h2 : p + (q - p) = q := by omega
  rw [h2]

theorem remaining_split (s s' : Scanner) (hinp : s'.input = s.input)
    (hmono : s.position ≤ s'.position) :
    Scanner.get_remaining s =
      (Scanner.get_remaining s).take (s'.position - s.position) ++
        Scanner.get_remaining s' := by
  rw [get_remaining, get_remaining, hinp]
  exact drop_split s.input s.position s'.position hmono

/-- C5: after a successful `next_word`, `next_number` or `next_line`,
the old `remaining()` is exactly the consumed prefix (the characters
the offset advanced over) followed by the new `remaining()`. -/
theorem consumption_invariant {α : Type} (s : Scanner)
    (parse : List Char → Option α) :
    ((Scanner.next_word s).1.isSome = true →
      Scanner.get_remaining s =
        (Scanner.get_remaining s).take
            ((Scanner.next_word s).2.position - s.position) ++
          Scanner.get_remaining (Scanner.next_word s).2) ∧
    ((Scanner.next_number parse s).1.isSome = true →
      Scanner.get_remaining s =
        (Scanner.get_remaining s).take
            ((Scanner.next_number parse s).2.position - s.position) ++
          Scanner.get_remaining (Scanner.next_number parse s).2) ∧
    ((Scanner.next_line s).1.isSome = true →
      Scanner.get_remaining s =
        (Scanner.get_remaining s).take
            ((Scanner.next_line s).2.position - s.position) ++
          Scanner.get_remaining (Scanner.next_line s).2) := by
  refine ⟨fun _ => ?_, fun _ => ?_, fun _ => ?_⟩
  · exact remaining_split s _ (next_word_input_eq s)
      (next_token_pos_mono (fun c _ => !(isRustWs c)) s)
  · refine remaining_split s _ (next_number_input_eq parse s) ?_
    rcases next_number_sc_cases parse s with h | h
    · rw [h]
    · rw [h]; exact next_token_pos_mono numberPred s
  · exact remaining_split s _ (next_line_input_eq s) (next_line_pos_mono s)

/-- C5 witness: the consumption invariant evaluated on concrete
successful calls of each of the three operations. -/
theorem consumption_invariant_witness :
    (Scanner.get_remaining (Scanner.mk "ab cd".toList 0) =
      (Scanner.get_remaining (Scanner.mk "ab cd".toList 0)).take
          ((Scanner.next_word (Scanner.mk "ab cd".toList 0)).2.position - 0) ++
        Scanner.get_remaining
          (Scanner.next_word (Scanner.mk "ab cd".toList 0)).2) ∧
    (Scanner.get_remaining (Scanner.mk " 42y".toList 0) =
      (Scanner.get_remaining (Scanner.mk " 42y".toList 0)).take
          ((Scanner.next_number parseIntRust
              (Scanner.mk " 42y".toList 0)).2.position - 0) ++
        Scanner.get_remaining
          (Scanner.next_number parseIntRust (Scanner.mk " 42y".toList 0)).2) ∧
    (Scanner.get_remaining (Scanner.mk "ab\ncd".toList 0) =
      (Scanner.get_remaining (Scanner.mk "ab\ncd".toList 0)).take
          ((Scanner.next_line (Scanner.mk "ab\ncd".toList 0)).2.position - 0) ++
        Scanner.get_remaining
          (Scanner.next_line (Scanner.mk "ab\ncd".toList 0)).2) :=
  ⟨(consumption_invariant (Scanner.mk "ab cd".toList 0) parseIntRust).1
      (by decide),
    (consumption_invariant (Scanner.mk " 42y".toList 0) parseIntRust).2.1
      (by decide),
    (consumption_invariant (Scanner.mk "ab\ncd".toList 0) parseIntRust).2.2
      (by decide)⟩

/-- C6: the three cases of `next_line`.  If the remainder is
`before ++ '\n' :: after` with no earlier newline, the returned line
is `before` with trailing whitespace trimmed (trimming affects only
the returned value) and the cursor advances by `length before + 1`,
consuming the newline.  If the remainder is nonempty without a
newline, the whole remainder is returned trimmed and the cursor moves
to the end of the input.  If the remainder is empty, the call reports
"not found" and changes nothing. -/
theorem next_line_spec_cases (s : Scanner) :
    (∀ before after : List Char,
      Scanner.get_remaining s = before ++ '\n' :: after → '\n' ∉ before →
      Scanner.next_line s =
        (some (trimEnd before),
          Scanner.mk s.input (s.position + before.length + 1))) ∧
    (Scanner.get_remaining s ≠ [] → '\n' ∉ Scanner.get_remaining s →
      Scanner.next_line s =
        (some (trimEnd (Scanner.get_remaining s)),
          Scanner.mk s.input s.input.length)) ∧
    (Scanner.get_remaining s = [] → Scanner.next_line s = (none, s)) := by
  refine ⟨?_, ?_, ?_⟩
  · intro before after hdec hmem
    have hf : findChar '\n' (Scanner.get_remaining s) = some before.length := by
      rw [hdec]
      exact findChar_of_decomp '\n' before after hmem
    simp only [next_line, hf]
    rw [hdec, List.take_left]
  · intro hne hmem
    have hf : findChar '\n' (Scanner.get_remaining s) = none :=
      findChar_none '\n' (Scanner.get_remaining s) hmem
    simp only [next_line, hf]
    rw [if_neg (by simp [List.isEmpty_iff, hne])]
  · intro he
    have hf : findChar '\n' (Scanner.get_remaining s) = none := by
      rw [he]; rfl
    simp only [next_line, hf]
    rw [if_pos (by simp [List.isEmpty_iff, he])]

/-- C6 witness: the three cases evaluated on concrete scanners — a
remainder with a newline after `"ab "`, a newline-free nonempty
remainder, and an exhausted scanner. -/
theorem next_line_spec_cases_witness :
    Scanner.next_line (Scanner.mk "ab \ncd".toList 0) =
        (some (trimEnd "ab ".toList), Scanner.mk "ab \ncd".toList 4) ∧
      Scanner.next_line (Scanner.mk "xy ".toList 0) =
        (some (trimEnd (Scanner.get_remaining (Scanner.mk "xy ".toList 0))),
          Scanner.mk "xy ".toList 3) ∧
      Scanner.next_line (Scanner.mk "a".toList 1) =
        (none, Scanner.mk "a".toList 1) :=
  ⟨(next_line_spec_cases (Scanner.mk "ab \ncd".toList 0)).1 "ab ".toList
      "cd".toList (by decide) (by decide),
    (next_line_spec_cases (Scanner.mk "xy ".toList 0)).2.1 (by decide)
      (by decide),
    (next_line_spec_cases (Scanner.mk "a".toList 1)).2.2 (by decide)⟩

/-- C7: on the concrete input of the repository's own test, eight
successive `next_number::<i64>` calls return 42, 7, -8, -9, -40, -30,
33, 85 and the ninth returns "not found". -/
theorem next_number_scenario_trace :
    nextNumbers 9
        (Scanner.new ("42 7 -8\n-9\n-40\n  -30    \n33   \n  85".toList)) =
      [some 42, some 7, some (-8), some (-9), some (-40), some (-30),
        some 33, some 85, none] := by
  decide

/-- C8: a successful `next_word` never returns the empty string and
the returned word contains no whitespace: the skipped prefix is all
whitespace (it fails the non-whitespace predicate), so `trim_start`
removes exactly it and leaves the nonempty whitespace-free run. -/
theorem next_word_nonempty_no_ws (s : Scanner) (tok : List Char)
    (s' : Scanner) (h : Scanner.next_word s = (some tok, s')) :
    tok ≠ [] ∧ ∀ c ∈ tok, isRustWs c = false := by
  rw [next_word] at h
  obtain ⟨skipped, run, rest, hdec, hne, hskip, hrun, hrest, htok, _, _, _⟩ :=
    next_token_spec (fun c _ => !(isRustWs c)) s tok s' h
  have hskipws : ∀ c ∈ skipped, isRustWs c = true := by
    intro c hc
    obtain ⟨n, hn⟩ := List.mem_iff_get.mp hc
    have h2 := hskip n.val c (by rw [List.get?_eq_get n.isLt]; exact congrArg some hn)
    simpa using h2
  have hrunws : ∀ c ∈ run, isRustWs c = false := by
    intro c hc
    obtain ⟨n, hn⟩ := List.mem_iff_get.mp hc
    have h2 := hrun n.val c (by rw [List.get?_eq_get n.isLt]; exact congrArg some hn)
    simpa using h2
  have htok_run : tok = run := by
    rw [htok, trimStart, List.dropWhile_append]
    have hde : skipped.dropWhile isRustWs = [] := by
      rw [List.dropWhile_eq_nil_iff]
      intro c hc
      exact hskipws c hc
    rw [hde]
    simp only [List.isEmpty_nil, if_pos]
    cases run with
    | nil => exact absurd rfl hne
    | cons c0 run' =>
      rw [List.dropWhile_cons, if_neg (by simp [hrunws c0 (by simp)])]
  rw [htok_run]
  exact ⟨hne, hrunws⟩

/-- C8 witness: `next_word` on `"  hi x"`. -/
theorem next_word_nonempty_no_ws_witness :
    "hi".toList ≠ [] ∧ ∀ c ∈ "hi".toList, isRustWs c = false :=
  next_word_nonempty_no_ws (Scanner.mk "  hi x".toList 0) "hi".toList
    (Scanner.mk "  hi x".toList 4) (by decide)

/-- C9: there are a predicate and an input on which `next_token`
succeeds, advances the cursor, and yet returns the empty string: with
a predicate accepting whitespace on input `"  a"`, the matched run is
all whitespace and `trim_start` erases it entirely. -/
theorem next_token_can_return_empty :
    ∃ (pred : Char → Nat → Bool) (s s' : Scanner),
      Scanner.next_token pred s = (some [], s') ∧
        s.position < s'.position :=
  ⟨fun c _ => isRustWs c, Scanner.mk [' ', ' ', 'a'] 0,
    Scanner.mk [' ', ' ', 'a'] 2, by decide, by decide⟩

/-- C10: when the remainder starts with a newline, `next_line`
returns `some` of the empty string (an empty line is found, not "not
found") and advances the offset by exactly 1. -/
theorem next_line_empty_line (s : Scanner) (rest : List Char)
    (h : Scanner.get_remaining s = '\n' :: rest) :
    Scanner.next_line s = (some [], Scanner.mk s.input (s.position + 1)) := by
  have hf : findChar '\n' (Scanner.get_remaining s) = some 0 := by
    rw [h, findChar, if_pos (by simp)]
  simp only [next_line, hf, List.take_zero]
  rw [show trimEnd [] = [] from rfl]

/-- C10 witness: `next_line` on remainder `"\nab"`. -/
theorem next_line_empty_line_witness :
    Scanner.next_line (Scanner.mk "\nab".toList 0) =
      (some [], Scanner.mk "\nab".toList 1) :=
  next_line_empty_line (Scanner.mk "\nab".toList 0) "ab".toList (by decide)

end ScannerRs
